import Mathlib

/-!
A shallow embedding of `src/py_code/toc_md_reader.py`, a Pelican Markdown
reader that extracts YAML front-matter metadata.

Pure Python functions become Lean functions.  The external collaborators
(the YAML decoder `yaml.safe_load`, the Markdown renderer
`self._md.reset().convert`, `pelican.utils.get_date`, the `toc` extension,
and the configuration tables `FORMATTED_FIELDS` and
`DUPLICATES_DEFINITIONS_ALLOWED`) are passed in as explicit parameters,
since the source treats them as opaque collaborators.  Python exceptions
are modelled with `Except Err`; the `_DEL` sentinel is modelled with
`Option` (`none` standing for `_DEL`).
-/

namespace TocMd

/-- ASCII whitespace as recognised by Python `str.strip()` and by `\s` in
the header regular expression (the inputs of interest are ASCII). -/
def isPySpace (c : Char) : Bool :=
  c = ' ' || c = '\t' || c = '\n' || c = '\r' || c = '\x0b' || c = '\x0c'

/-- Raw decoded YAML values, as produced by `yaml.safe_load`
(the `RawMetadata` values).  A `datetime.date` produced by the YAML
decoder is represented by its `isoformat()` string. -/
inductive Yaml where
  | nullV
  | boolV (b : Bool)
  | intV (n : Int)
  | strV (s : String)
  | dateV (iso : String)
  | listV (l : List Yaml)
  | dictV (l : List (String × Yaml))

/-- `value is None`. -/
def Yaml.isNull : Yaml → Bool
  | .nullV => true
  | _ => false

/-- `isinstance(value, list)`. -/
def Yaml.isList : Yaml → Bool
  | .listV _ => true
  | _ => false

/-- `isinstance(value, str)`. -/
def Yaml.isStr : Yaml → Bool
  | .strV _ => true
  | _ => false

/-- `isinstance(metadata, dict)`. -/
def Yaml.isDict : Yaml → Bool
  | .dictV _ => true
  | _ => false

/-- The wrapped string of a string value (and `""` on every other
constructor; only ever used under an `isStr` guard). -/
def Yaml.getStr : Yaml → String
  | .strV s => s
  | _ => ""

def joinComma (l : List String) : String := String.intercalate ", " l

mutual

/-- Python `str()` of a raw value. -/
def pyStr : Yaml → String
  | .nullV => "None"
  | .boolV true => "True"
  | .boolV false => "False"
  | .intV n => toString n
  | .strV s => s
  | .dateV iso => iso
  | .listV l => "[" ++ joinComma (reprList l) ++ "]"
  | .dictV l => "\x7b" ++ joinComma (reprPairs l) ++ "\x7d"

/-- Python `repr()` of a raw value, as used for elements shown inside
containers. -/
def pyRepr : Yaml → String
  | .nullV => "None"
  | .boolV true => "True"
  | .boolV false => "False"
  | .intV n => toString n
  | .strV s => "\x27" ++ s ++ "\x27"
  | .dateV iso => "datetime.date(" ++ iso ++ ")"
  | .listV l => "[" ++ joinComma (reprList l) ++ "]"
  | .dictV l => "\x7b" ++ joinComma (reprPairs l) ++ "\x7d"

def reprList : List Yaml → List String
  | [] => []
  | x :: xs => pyRepr x :: reprList xs

def reprPairs : List (String × Yaml) → List String
  | [] => []
  | (k, v) :: xs => ("\x27" ++ k ++ "\x27: " ++ pyRepr v) :: reprPairs xs

end

/-- Python truthiness of a raw value (`if x`). -/
def pyTruthy : Yaml → Bool
  | .nullV => false
  | .boolV b => b
  | .intV n => n != 0
  | .strV s => !s.data.isEmpty
  | .dateV _ => true
  | .listV l => !l.isEmpty
  | .dictV l => !l.isEmpty

/-- Python `str.strip()` over the ASCII whitespace set, on character
lists. -/
def pyStripChars (l : List Char) : List Char :=
  ((l.dropWhile isPySpace).reverse.dropWhile isPySpace).reverse

/-- Python `str.strip()`. -/
def pyStrip (s : String) : String := String.mk (pyStripChars s.data)

/-- Python `str.lower()` (ASCII). -/
def pyLower (s : String) : String := String.mk (s.data.map Char.toLower)

/-- `_strip(obj) = str(obj).strip()` (line 52). -/
def _strip (obj : Yaml) : String := pyStrip (pyStr obj)

/-- `_to_list(obj) = [obj] if not isinstance(obj, (tuple, list)) else obj`
(line 56; YAML decoding never produces tuples). -/
def _to_list : Yaml → List Yaml
  | .listV l => l
  | v => [v]

/-- The configuration and external collaborators consumed by the reader:
`FORMATTED_FIELDS`, `DUPLICATES_DEFINITIONS_ALLOWED`,
`self._md.reset().convert`, `pelican.utils.get_date` (`none` models a
raised `ValueError`), and the `toc`-extension token extraction used by
`read`. -/
structure Settings where
  formattedFields : List String
  duplicatesDefinitionsAllowed : List (String × Bool)
  mdRender : String → String
  getDate : String → Option String
  tocTokens : String → Yaml

/-- `DUPES_NOT_ALLOWED` (lines 32-34): the keys of
`DUPLICATES_DEFINITIONS_ALLOWED` whose value is falsy, minus `tags` and
`authors`. -/
def DUPES_NOT_ALLOWED (dd : List (String × Bool)) : List String :=
  ((dd.filter (fun kv => !kv.2)).map (fun kv => kv.1)).filter
    (fun k => k != "tags" && k != "authors")

/-- Python exception classes that can escape the normalization code. -/
inductive Err where
  | indexError
  | valueError
  | typeError
  | attributeError
deriving DecidableEq

/-- `pelican.contents.Tag`; identity is by normalized string value. -/
structure Tag where
  name : String
deriving DecidableEq

/-- `pelican.contents.Category`. -/
structure Category where
  name : String
deriving DecidableEq

/-- `pelican.contents.Author`. -/
structure Author where
  name : String
deriving DecidableEq

/-- Normalized metadata values (the values of `NormalizedMetadata`). -/
inductive MetaVal where
  | yaml (v : Yaml)
  | str (s : String)
  | tags (l : List Tag)
  | category (c : Category)
  | author (a : Author)
  | authors (l : List Author)
  | date (iso : String)

/-- Structured log records emitted by the module (levels info, warning,
error, debug). -/
inductive LogEntry where
  | info (src : String)
  | warning (name src : String) (full : List Yaml) (kept : Yaml)
  | yamlError (src : String)
  | notDictError (src : String)
  | debugParsed (meta : List (String × Yaml)) (out : List (String × MetaVal))

/-- Python `s.replace("_", " ")`. -/
def pyUnderscores (s : String) : String :=
  String.mk (s.data.map (fun c => if c = '_' then ' ' else c))

/-- The argument `_parse_date` hands to `get_date`:
a date object is replaced by its isoformat first, then
`str(obj).strip().replace("_", " ")` (lines 61-68). -/
def parseDateStr (obj : Yaml) : String :=
  let o := match obj with
    | .dateV iso => Yaml.strV iso
    | v => v
  pyUnderscores (pyStrip (pyStr o))

/-- `_parse_date` (lines 61-68); `get_date` raising `ValueError` is
modelled by `none`. -/
def _parse_date (cfg : Settings) (obj : Yaml) : Except Err String :=
  match cfg.getDate (parseDateStr obj) with
  | some d => .ok d
  | none => .error .valueError

/-- Python `x.replace("pages/", "")` on character lists: every
left-to-right non-overlapping occurrence is removed. -/
def stripPagesAll : List Char → List Char
  | 'p' :: 'a' :: 'g' :: 'e' :: 's' :: '/' :: rest => stripPagesAll rest
  | c :: rest => c :: stripPagesAll rest
  | [] => []

/-- Whether the text starts with the segment `pages/`. -/
def pagesHere : List Char → Bool
  | 'p' :: 'a' :: 'g' :: 'e' :: 's' :: '/' :: _ => true
  | _ => false

/-- Whether `pages/` occurs anywhere in the text. -/
def containsPagesSeg : List Char → Bool
  | [] => false
  | c :: rest => pagesHere (c :: rest) || containsPagesSeg rest

/-- Python `lst or _DEL`: an empty list is falsy and yields the Drop
marker. -/
def listOrDel {α : Type} (f : List α → MetaVal) (l : List α) : Option MetaVal :=
  if l.isEmpty then none else some (f l)

/-- Python `_strip(x) or _DEL`: an empty string is falsy and yields the
Drop marker. -/
def strOrDel (s : String) : Option MetaVal :=
  if s.data.isEmpty then none else some (.str s)

/-- The `tags` processor (line 39). -/
def tagsProc (_cfg : Settings) (x : Yaml) : Except Err (Option MetaVal) :=
  .ok (listOrDel MetaVal.tags ((_to_list x).map (fun t => Tag.mk (_strip t))))

/-- The `date` / `modified` processor (lines 40-41). -/
def dateProc (cfg : Settings) (x : Yaml) : Except Err (Option MetaVal) :=
  (_parse_date cfg x).map (fun d => some (.date d))

/-- The `category` processor (line 42). -/
def categoryProc (_cfg : Settings) (x : Yaml) : Except Err (Option MetaVal) :=
  .ok (if pyTruthy x then some (.category (Category.mk (_strip x))) else none)

/-- The `author` processor (line 43). -/
def authorProc (_cfg : Settings) (x : Yaml) : Except Err (Option MetaVal) :=
  .ok (if pyTruthy x then some (.author (Author.mk (_strip x))) else none)

/-- The `authors` processor (line 44). -/
def authorsProc (_cfg : Settings) (x : Yaml) : Except Err (Option MetaVal) :=
  .ok (listOrDel MetaVal.authors ((_to_list x).map (fun a => Author.mk (_strip a))))

/-- The `slug` / `save_as` / `status` processor `_strip(x) or _DEL`
(lines 45-47). -/
def slugLikeProc (_cfg : Settings) (x : Yaml) : Except Err (Option MetaVal) :=
  .ok (strOrDel (_strip x))

/-- The `path_no_ext` processor `x.replace("pages/", "")` (line 48):
an `AttributeError` if `x` is not a string. -/
def pathNoExtProc (_cfg : Settings) (x : Yaml) : Except Err (Option MetaVal) :=
  match x with
  | .strV s => .ok (some (.str (String.mk (stripPagesAll s.data))))
  | _ => .error .attributeError

/-- `YAML_METADATA_PROCESSORS` lookup plus application (lines 38-49 and
182-184): registered names get their processor, everything else passes
through unchanged. -/
def applyProc (cfg : Settings) (name : String) (value : Yaml) :
    Except Err (Option MetaVal) :=
  if name = "tags" then tagsProc cfg value
  else if name = "date" then dateProc cfg value
  else if name = "modified" then dateProc cfg value
  else if name = "category" then categoryProc cfg value
  else if name = "author" then authorProc cfg value
  else if name = "authors" then authorsProc cfg value
  else if name = "slug" then slugLikeProc cfg value
  else if name = "save_as" then slugLikeProc cfg value
  else if name = "status" then slugLikeProc cfg value
  else if name = "path_no_ext" then pathNoExtProc cfg value
  else .ok (some (.yaml value))

/-- Collect the strings of a list for Python `"\n".join(value)`, which
raises `TypeError` unless every element is a `str`. -/
def strList : List Yaml → Except Err (List String)
  | [] => .ok []
  | .strV s :: rest => (strList rest).map (fun l => s :: l)
  | _ :: _ => .error .typeError

/-- Python `"\n".join(value)`. -/
def joinLines (l : List Yaml) : Except Err String :=
  (strList l).map (String.intercalate "\n")

/-- Pack a processor result with the (possibly renamed) canonical name:
`_DEL` (`none`) means the field is omitted (lines 182-185). -/
def finishField (cfg : Settings) (name : String) (value : Yaml)
    (logs : List LogEntry) :
    Except Err (Option (String × MetaVal) × List LogEntry) :=
  (applyProc cfg name value).map (fun o => (o.map (fun mv => (name, mv)), logs))

/-- One iteration of the loop body of `_parse_yaml_metadata`
(lines 149-185): null skip, name lowering, in-list null filtering,
formatted-field rendering, author upconversion, duplicate collapsing,
and processor application. -/
def normalizeField (cfg : Settings) (src : String) (name0 : String) :
    Yaml → Except Err (Option (String × MetaVal) × List LogEntry)
  | .nullV => .ok (none, [])
  | v0 =>
    let name := pyLower name0
    if cfg.formattedFields.contains name then
      match v0 with
      | .listV l =>
        match joinLines (l.filter (fun x => !x.isNull)) with
        | .error e => .error e
        | .ok s => finishField cfg name (.strV (cfg.mdRender s)) []
      | v => finishField cfg name (.strV (cfg.mdRender (pyStr v))) []
    else
      match v0 with
      | .listV l =>
        let fl := l.filter (fun x => !x.isNull)
        if fl.length > 1 ∧ name = "author" then
          finishField cfg "authors" (.listV fl) []
        else if (DUPES_NOT_ALLOWED cfg.duplicatesDefinitionsAllowed).contains name then
          match fl with
          | [] => .error .indexError
          | h :: t =>
            finishField cfg name h
              (if 0 < t.length then [.warning name src (h :: t) h] else [])
        else finishField cfg name (.listV fl) []
      | v => finishField cfg name v []

/-- Python `output[name] = value`: overwrite in place, else append. -/
def setKey : List (String × MetaVal) → String → MetaVal →
    List (String × MetaVal)
  | [], k, v => [(k, v)]
  | (k0, v0) :: rest, k, v =>
    if k0 = k then (k0, v) :: rest else (k0, v0) :: setKey rest k v

/-- Python `name in output` / `output.get(name)`. -/
def getKey : List (String × MetaVal) → String → Option MetaVal
  | [], _ => none
  | (k0, v0) :: rest, k => if k0 = k then some v0 else getKey rest k

def hasKey (l : List (String × MetaVal)) (k : String) : Bool :=
  (getKey l k).isSome

/-- The loop of `_parse_yaml_metadata`, threading `output` and the log
records emitted so far. -/
def parseFields (cfg : Settings) (src : String) :
    List (String × Yaml) → List (String × MetaVal) → List LogEntry →
    Except Err (List (String × MetaVal) × List LogEntry)
  | [], out, logs => .ok (out, logs)
  | (n, v) :: rest, out, logs =>
    match normalizeField cfg src n v with
    | .error e => .error e
    | .ok (none, ls) => parseFields cfg src rest out (logs ++ ls)
    | .ok (some (k, mv), ls) => parseFields cfg src rest (setKey out k mv) (logs ++ ls)

/-- `_parse_yaml_metadata` (lines 143-188), including the final debug
record. -/
def parseYamlMetadata (cfg : Settings) (src : String)
    (meta : List (String × Yaml)) :
    Except Err (List (String × MetaVal) × List LogEntry) :=
  (parseFields cfg src meta [] []).map
    (fun r => (r.1, r.2 ++ [.debugParsed meta r.1]))

/-- `_load_yaml_metadata` (lines 113-136): the YAML decoder is an
explicit parameter (`Except Unit Yaml`, error standing for any raised
parse exception).  Parse failure or a non-mapping root degrades to an
empty mapping plus an error-level log record. -/
def loadYamlMetadata (cfg : Settings) (parse : String → Except Unit Yaml)
    (src text : String) :
    Except Err (List (String × MetaVal) × List LogEntry) :=
  match parse text with
  | .error _ => .ok ([], [.yamlError src])
  | .ok (.dictV m) => parseYamlMetadata cfg src m
  | .ok _ => .ok ([], [.notDictError src])

/-- `[] or head '\n'`: a position where the regex `$` matches in
MULTILINE mode. -/
def isEol : List Char → Bool
  | [] => true
  | c :: _ => c = '\n'

/-- Whether the text begins with the end-marker alternative
`^(?:---|\.\.\.)$` of `HEADER_RE`: three dashes or three dots followed by
end of line. -/
def markerHere : List Char → Bool
  | '-' :: '-' :: '-' :: rest => isEol rest
  | '.' :: '.' :: '.' :: rest => isEol rest
  | _ => false

/-- Drop the three marker characters. -/
def dropMarker : List Char → List Char
  | _ :: _ :: _ :: rest => rest
  | l => l

/-- Lazy search for the end marker of `HEADER_RE`: the metadata group
`(?P<metadata>.+?)` takes the shortest prefix that ends right before a
line equal to `---` or `...`; the content group is everything after those
three marker characters. -/
def findEndMarker : List Char → Option (List Char × List Char)
  | [] => none
  | c :: rest =>
    if c = '\n' && markerHere rest then
      some ([c], dropMarker rest)
    else
      match findEndMarker rest with
      | some (m, b) => some (c :: m, b)
      | none => none

/-- The start of `HEADER_RE` after the whitespace: `^---$` followed by
the rest of the document. -/
def startMarkerHere : List Char → Option (List Char)
  | '-' :: '-' :: '-' :: rest => if isEol rest then some rest else none
  | _ => none

/-- The `\s*^---$` part of `HEADER_RE`: consume leading whitespace, then
require the start marker at a line start (the only position a successful
match can use is the first non-whitespace character). -/
def skipWsToMarker : List Char → Bool → Option (List Char)
  | [], _ => none
  | c :: rest, atLS =>
    if isPySpace c then skipWsToMarker rest (c == '\n')
    else if atLS then startMarkerHere (c :: rest)
    else none

/-- `HEADER_RE.fullmatch(text)` (lines 24-30 and 89): `some (metadata,
content)` on a match, `none` otherwise. -/
def headerMatch (t : List Char) : Option (List Char × List Char) :=
  match skipWsToMarker t true with
  | none => none
  | some r => findEndMarker r

/-- The outcome of `TOCMarkdownReader.read` (lines 86-111):
`fallback` models the `super().read(source_path)` path taken when the
header regex does not match. -/
inductive ReadResult where
  | fallback (src : String)
  | raised (e : Err)
  | done (content : String) (metadata : List (String × MetaVal))
      (logs : List LogEntry)

/-- `TOCMarkdownReader.read` (lines 86-111). -/
def read (cfg : Settings) (parse : String → Except Unit Yaml)
    (src text : String) : ReadResult :=
  match headerMatch text.data with
  | none => .fallback src
  | some (metaChars, contentChars) =>
    let content := cfg.mdRender (String.mk contentChars)
    match loadYamlMetadata cfg parse src (String.mk metaChars) with
    | .error e => .raised e
    | .ok (md, logs) =>
      let md2 :=
        if hasKey md "toc" then
          setKey md "parsed_toc" (.yaml (cfg.tocTokens (String.mk contentChars)))
        else md
      .done content md2 logs

/-- Exit conditions of a single processor application: only `date` /
`modified` (an unparseable date) and `path_no_ext` (a non-string value)
can raise; every other processor is total. -/
def procSafe (cfg : Settings) (name : String) (v : Yaml) : Bool :=
  if name = "date" || name = "modified" then
    (cfg.getDate (parseDateStr v)).isSome
  else if name = "path_no_ext" then v.isStr
  else true

/-- The conditions under which `normalizeField` cannot raise, branch by
branch: formatted list fields must contain only strings, a
duplicates-not-allowed list must be non-empty after null filtering, and
the value finally handed to the processor must satisfy `procSafe`. -/
def fieldSafe (cfg : Settings) (name0 : String) : Yaml → Bool
  | .nullV => true
  | v0 =>
    let name := pyLower name0
    if cfg.formattedFields.contains name then
      match v0 with
      | .listV l =>
        let fl := l.filter (fun x => !x.isNull)
        fl.all Yaml.isStr &&
          procSafe cfg name
            (.strV (cfg.mdRender (String.intercalate "\n" (fl.map Yaml.getStr))))
      | v => procSafe cfg name (.strV (cfg.mdRender (pyStr v)))
    else
      match v0 with
      | .listV l =>
        let fl := l.filter (fun x => !x.isNull)
        if fl.length > 1 ∧ name = "author" then true
        else if (DUPES_NOT_ALLOWED cfg.duplicatesDefinitionsAllowed).contains name then
          match fl with
          | [] => false
          | h :: _ => procSafe cfg name h
        else procSafe cfg name (.listV fl)
      | v => procSafe cfg name v

/-- Python `text.split("\n")` (the view of a document as its lines, used
to state the header-shape conditions). -/
def splitLines : List Char → List (List Char)
  | [] => [[]]
  | c :: rest =>
    if c = '\n' then [] :: splitLines rest
    else
      match splitLines rest with
      | [] => [[c]]
      | l :: ls => (c :: l) :: ls

/-- A blank line: only whitespace characters. -/
def isBlankLine (l : List Char) : Bool := l.all isPySpace

def dashesL : List Char := ['-', '-', '-']

def dotsL : List Char := ['.', '.', '.']

/-- The header-free document shape of the specification: after optional
leading blank lines the text does not begin with a line consisting
exactly of `---`, or no subsequent line equal to `---` or `...` exists. -/
def noHeaderShape (t : String) : Prop :=
  ((splitLines t.data).dropWhile isBlankLine).head? ≠ some dashesL ∨
    ∀ l ∈ ((splitLines t.data).dropWhile isBlankLine).tail,
      l ≠ dashesL ∧ l ≠ dotsL

instance (t : String) : Decidable (noHeaderShape t) := by
  unfold noHeaderShape
  exact inferInstance

/-- Re-serialize a normalized value back to its raw form (the round-trip
direction of the specification: records become their display strings,
record lists become string lists, a date becomes a date-typed raw
value). -/
def reserialize : MetaVal → Yaml
  | .yaml v => v
  | .str s => .strV s
  | .tags ts => .listV (ts.map (fun t => .strV t.name))
  | .category c => .strV c.name
  | .author a => .strV a.name
  | .authors aus => .listV (aus.map (fun a => .strV a.name))
  | .date d => .dateV d

/-- The external date collaborator round-trips its own canonical output:
re-parsing the textual form of a parsed date yields the same date. -/
def dateRoundTrip (cfg : Settings) : Prop :=
  ∀ s d, cfg.getDate s = some d →
    cfg.getDate (pyUnderscores (pyStrip d)) = some d

/-- A concrete configuration for witnesses: the Pelican duplicate table,
`FORMATTED_FIELDS = ["summary"]`, an identity renderer, and a date
collaborator that accepts any non-empty string. -/
def sampleCfg : Settings where
  formattedFields := ["summary"]
  duplicatesDefinitionsAllowed :=
    [("tags", false), ("date", false), ("modified", false),
     ("status", false), ("category", false), ("author", false),
     ("save_as", false), ("url", false), ("authors", false),
     ("slug", false)]
  mdRender := fun s => s
  getDate := fun s => if s.data.isEmpty then none else some s
  tocTokens := fun _ => Yaml.listV []

/-- A normalized value that would signal deletion: a null, an empty tag
list, or an empty author list.  `nonVacuous` states a value is none of
these. -/
def nonVacuous (mv : MetaVal) : Prop :=
  mv ≠ .yaml Yaml.nullV ∧ mv ≠ .tags [] ∧ mv ≠ .authors []

theorem dropWhile_self_dropWhile {α : Type} (p : α → Bool) (l : List α) :
    (l.dropWhile p).dropWhile p = l.dropWhile p := by
  induction l with
  | nil => rfl
  | cons c t ih =>
    by_cases h : p c = true
    · simp [List.dropWhile_cons, h, ih]
    · simp [List.dropWhile_cons, h]

theorem dropWhile_head_false {α : Type} (p : α → Bool) :
    ∀ (l : List α) (c : α) (t : List α), l.dropWhile p = c :: t → p c = false := by
  intro l
  induction l with
  | nil => intro c t h; simp [List.dropWhile] at h
  | cons a l ih =>
    intro c t h
    rw [List.dropWhile_cons] at h
    by_cases ha : p a = true
    · rw [if_pos ha] at h
      exact ih c t h
    · rw [if_neg ha] at h
      injection h with h1 _
      subst h1
      exact Bool.eq_false_iff.mpr ha

theorem getLast?_dropWhile {α : Type} (p : α → Bool) :
    ∀ (l : List α), l.dropWhile p ≠ [] →
      (l.dropWhile p).getLast? = l.getLast? := by
  intro l
  induction l with
  | nil => intro h; simp [List.dropWhile] at h
  | cons a l ih =>
    intro h
    by_cases ha : p a = true
    · rw [List.dropWhile_cons, if_pos ha] at h ⊢
      cases l with
      | nil => simp [List.dropWhile] at h
      | cons b l2 =>
        rw [List.getLast?_cons_cons]
        exact ih h
    · rw [List.dropWhile_cons, if_neg ha]

theorem pyStripChars_idem (l : List Char) :
    pyStripChars (pyStripChars l) = pyStripChars l := by
  unfold pyStripChars
  have hdr : ((l.dropWhile isPySpace).reverse.dropWhile isPySpace).reverse.dropWhile
      isPySpace = ((l.dropWhile isPySpace).reverse.dropWhile isPySpace).reverse := by
    cases hBr : ((l.dropWhile isPySpace).reverse.dropWhile isPySpace).reverse with
    | nil => rfl
    | cons c t =>
      have hBne : (l.dropWhile isPySpace).reverse.dropWhile isPySpace ≠ [] := by
        intro h0
        rw [h0] at hBr
        simp at hBr
      have h1 : ((l.dropWhile isPySpace).reverse.dropWhile isPySpace).reverse.head? =
          some c := by rw [hBr]; rfl
      rw [List.head?_reverse] at h1
      rw [getLast?_dropWhile isPySpace _ hBne, List.getLast?_reverse] at h1
      obtain ⟨t2, hA⟩ : ∃ t2, l.dropWhile isPySpace = c :: t2 := by
        cases hA0 : l.dropWhile isPySpace with
        | nil => rw [hA0] at h1; simp at h1
        | cons c0 t0 =>
          rw [hA0] at h1
          simp at h1
          exact ⟨t0, by rw [h1]⟩
      have hc : isPySpace c = false := dropWhile_head_false isPySpace l c t2 hA
      rw [List.dropWhile_cons]
      simp [hc]
  rw [hdr]
  simp only [List.reverse_reverse]
  rw [dropWhile_self_dropWhile]

theorem pyStrip_idem (s : String) : pyStrip (pyStrip s) = pyStrip s := by
  simp [pyStrip, pyStripChars_idem]

theorem stripPagesAll_eq_cons (c : Char) (rest : List Char)
    (h : pagesHere (c :: rest) = false) :
    stripPagesAll (c :: rest) = c :: stripPagesAll rest := by
  rw [stripPagesAll.eq_def]
  split
  · rename_i heq
    injection heq with h1 h2
    subst h1
    subst h2
    simp [pagesHere] at h
  · rename_i heq
    injection heq with h1 h2
    subst h1
    subst h2
    rfl
  · rename_i heq
    exact absurd heq (List.cons_ne_nil c rest)

theorem stripPagesAll_id_of_no_occ :
    ∀ s : List Char, containsPagesSeg s = false → stripPagesAll s = s := by
  intro s
  induction s with
  | nil => intro _; rfl
  | cons c rest ih =>
    intro h
    rw [containsPagesSeg] at h
    rcases Bool.or_eq_false_iff.mp h with ⟨h1, h2⟩
    rw [stripPagesAll_eq_cons c rest h1, ih h2]

theorem finishField_some (cfg : Settings) (name : String) (value : Yaml)
    (logs : List LogEntry) (k : String) (mv : MetaVal) (ls : List LogEntry)
    (h : finishField cfg name value logs = .ok (some (k, mv), ls)) :
    applyProc cfg name value = .ok (some mv) ∧ k = name ∧ ls = logs := by
  unfold finishField at h
  cases hap : applyProc cfg name value with
  | error e => rw [hap] at h; simp [Except.map] at h
  | ok o =>
    rw [hap] at h
    cases o with
    | none => simp [Except.map] at h
    | some mv0 =>
      simp [Except.map] at h
      obtain ⟨⟨hk, hmv⟩, hls⟩ := h
      subst hk
      subst hmv
      subst hls
      exact ⟨rfl, rfl, rfl⟩

theorem parseFields_error_of_mem (cfg : Settings) (src : String) :
    ∀ (meta : List (String × Yaml)) (out : List (String × MetaVal))
      (logs : List LogEntry) (n : String) (v : Yaml) (e : Err),
      (n, v) ∈ meta → normalizeField cfg src n v = .error e →
      ∃ e2, parseFields cfg src meta out logs = .error e2 := by
  intro meta
  induction meta with
  | nil => intro out logs n v e h _; cases h
  | cons hd rest ih =>
    intro out logs n v e hmem hnf
    obtain ⟨n0, v0⟩ := hd
    rcases List.mem_cons.mp hmem with heq | hmem2
    · injection heq with e1 e2
      subst e1
      subst e2
      exact ⟨e, by simp [parseFields, hnf]⟩
    · cases h2 : normalizeField cfg src n0 v0 with
      | error e0 => exact ⟨e0, by simp [parseFields, h2]⟩
      | ok r =>
        obtain ⟨o, ls⟩ := r
        cases o with
        | none =>
          obtain ⟨e2, h3⟩ := ih out (logs ++ ls) n v e hmem2 hnf
          exact ⟨e2, by simp [parseFields, h2, h3]⟩
        | some kv =>
          obtain ⟨k, mv⟩ := kv
          obtain ⟨e2, h3⟩ := ih (setKey out k mv) (logs ++ ls) n v e hmem2 hnf
          exact ⟨e2, by simp [parseFields, h2, h3]⟩

/-- C1 counterexample: `slug` disallows duplicates, so a raw `slug: []`
reaches `value = value[0]` on an empty list and `_parse_yaml_metadata`
raises `IndexError` instead of returning a result. -/
theorem c1_cex :
    parseYamlMetadata sampleCfg "content/post.md" [("slug", Yaml.listV [])] =
      .error .indexError := rfl

/-- C2 counterexample: an unregistered pass-through field whose raw value
is an empty list survives normalization as an empty-list entry in the
output mapping. -/
theorem c2_cex :
    parseYamlMetadata sampleCfg "content/post.md" [("custom", Yaml.listV [])] =
      .ok ([("custom", .yaml (.listV []))],
        [.debugParsed [("custom", Yaml.listV [])]
          [("custom", .yaml (.listV []))]]) := rfl

/-- C3 counterexample: `author: ""` is a single non-null value, yet the
processor `Author(_strip(x), y) if x else _DEL` drops the falsy empty
string, so the output has no `author` key at all. -/
theorem c3_cex :
    parseYamlMetadata sampleCfg "content/post.md" [("author", Yaml.strV "")] =
      .ok ([], [.debugParsed [("author", Yaml.strV "")] []]) := rfl

/-- C7 counterexample: `"a/pages/b"` has no leading `pages/` prefix, so
by the claim it should pass through unchanged, but `str.replace` removes
the interior occurrence and yields `"a/b"`. -/
theorem c7_cex :
    pathNoExtProc sampleCfg (Yaml.strV "a/pages/b") =
        .ok (some (.str "a/b")) ∧
      ("a/b" : String) ≠ "a/pages/b" := ⟨rfl, by decide⟩

/-- C10 counterexample: `author: " "` normalizes to `Author("")`;
re-serializing that record to its raw textual form `""` and re-applying
the `author` processor yields the Drop marker, not the same value. -/
theorem c10_cex :
    applyProc sampleCfg "author" (Yaml.strV " ") =
        .ok (some (.author ⟨""⟩)) ∧
      applyProc sampleCfg "author" (reserialize (MetaVal.author ⟨""⟩)) =
        .ok none := ⟨rfl, rfl⟩

/-- C6: a duplicates-not-allowed, non-formatted field whose raw value is
an empty list or an all-null list reaches the unguarded `value = value[0]`
on an empty list: the field's normalization step raises `IndexError`, and
`_parse_yaml_metadata` produces no normalized mapping for any raw mapping
containing such a field. -/
theorem c6_empty_dup_list_raises (cfg : Settings) (src : String)
    (meta : List (String × Yaml)) (n : String) (l : List Yaml)
    (hmem : (n, Yaml.listV l) ∈ meta)
    (hnull : ∀ x ∈ l, x.isNull = true)
    (hf : pyLower n ∉ cfg.formattedFields)
    (hd : pyLower n ∈ DUPES_NOT_ALLOWED cfg.duplicatesDefinitionsAllowed) :
    normalizeField cfg src n (Yaml.listV l) = .error .indexError ∧
      ∃ e, parseYamlMetadata cfg src meta = .error e := by
  have hfl : l.filter (fun x => !x.isNull) = [] := by
    rw [List.filter_eq_nil_iff]
    intro a ha
    simp [hnull a ha]
  have h1 : normalizeField cfg src n (Yaml.listV l) = .error .indexError := by
    simp [normalizeField, hf, hfl, hd]
  refine ⟨h1, ?_⟩
  obtain ⟨e2, h2⟩ := parseFields_error_of_mem cfg src meta [] [] n _ _ hmem h1
  refine ⟨e2, ?_⟩
  unfold parseYamlMetadata
  rw [h2]
  rfl

/-- C6 witness: the all-null list `status: [null]` raises `IndexError`. -/
theorem c6_witness :
    normalizeField sampleCfg "content/post.md" "status"
        (Yaml.listV [Yaml.nullV]) = .error .indexError ∧
      ∃ e, parseYamlMetadata sampleCfg "content/post.md"
        [("status", Yaml.listV [Yaml.nullV])] = .error e :=
  c6_empty_dup_list_raises sampleCfg "content/post.md"
    [("status", Yaml.listV [Yaml.nullV])] "status" [Yaml.nullV]
    (List.Mem.head _) (by decide) (by decide) (by decide)

/-- C4: for a duplicates-not-allowed, non-formatted field (and not the
author-upconversion case) whose null-filtered list value has more than
one entry, normalization applies the field processor to exactly the first
entry and logs a warning naming the field, the source, the full value,
and the value retained. -/
theorem c4_duplicate_collapse (cfg : Settings) (src n0 : String)
    (l : List Yaml) (h : Yaml) (t : List Yaml)
    (hf : pyLower n0 ∉ cfg.formattedFields)
    (hd : pyLower n0 ∈ DUPES_NOT_ALLOWED cfg.duplicatesDefinitionsAllowed)
    (hna : pyLower n0 ≠ "author")
    (hfl : l.filter (fun x => !x.isNull) = h :: t)
    (ht : t ≠ []) :
    normalizeField cfg src n0 (Yaml.listV l) =
      (applyProc cfg (pyLower n0) h).map
        (fun o => (o.map (fun mv => (pyLower n0, mv)),
          [LogEntry.warning (pyLower n0) src (h :: t) h])) := by
  have hlen : 0 < t.length := List.length_pos.mpr ht
  simp [normalizeField, hf, hfl, hd, hna, hlen, finishField]

/-- C4 witness: `Status: [" a ", null, "b"]` collapses to the processed
first non-null entry `"a"` with the expected warning record. -/
theorem c4_witness :
    normalizeField sampleCfg "content/post.md" "Status"
        (Yaml.listV [Yaml.strV " a ", Yaml.nullV, Yaml.strV "b"]) =
      .ok (some ("status", .str "a"),
        [.warning "status" "content/post.md"
          [Yaml.strV " a ", Yaml.strV "b"] (Yaml.strV " a ")]) := by
  have h1 := c4_duplicate_collapse sampleCfg "content/post.md" "Status"
    [Yaml.strV " a ", Yaml.nullV, Yaml.strV "b"] (Yaml.strV " a ")
    [Yaml.strV "b"] (by decide) (by decide) (by decide) rfl
    (List.cons_ne_nil _ _)
  exact h1.trans rfl

/-- C7 (amended): the `path_no_ext` processor is a pure, total string
transform on string inputs, but it removes every left-to-right occurrence
of the segment `pages/`, not only a leading prefix; text without any
occurrence is left intact. -/
theorem c7_replace_all (cfg : Settings) (s : List Char) :
    pathNoExtProc cfg (Yaml.strV (String.mk s)) =
        .ok (some (.str (String.mk (stripPagesAll s)))) ∧
      stripPagesAll ('p' :: 'a' :: 'g' :: 'e' :: 's' :: '/' :: s) =
        stripPagesAll s ∧
      (containsPagesSeg s = false → stripPagesAll s = s) := by
  exact ⟨rfl, rfl, stripPagesAll_id_of_no_occ s⟩

/-- C7 witness: a string with no occurrence of the segment is unchanged. -/
theorem c7_witness : stripPagesAll ('x' :: []) = 'x' :: [] :=
  (c7_replace_all sampleCfg ('x' :: [])).2.2 (by decide)

theorem applyProc_author (cfg : Settings) (v : Yaml) :
    applyProc cfg "author" v = authorProc cfg v := rfl

theorem applyProc_authors (cfg : Settings) (v : Yaml) :
    applyProc cfg "authors" v = authorsProc cfg v := rfl

theorem setKey_mem :
    ∀ (out : List (String × MetaVal)) (k : String) (mv : MetaVal)
      (k2 : String) (mv2 : MetaVal),
      (k2, mv2) ∈ setKey out k mv → (k2, mv2) ∈ out ∨ mv2 = mv := by
  intro out
  induction out with
  | nil =>
    intro k mv k2 mv2 h
    right
    rcases List.mem_cons.mp h with heq | hm
    · injection heq with _ h2
    · cases hm
  | cons hd rest ih =>
    intro k mv k2 mv2 h
    obtain ⟨k0, v0⟩ := hd
    unfold setKey at h
    by_cases hk : k0 = k
    · rw [if_pos hk] at h
      rcases List.mem_cons.mp h with heq | hm
      · injection heq with _ h2
        right
        exact h2
      · left
        exact List.mem_cons_of_mem _ hm
    · rw [if_neg hk] at h
      rcases List.mem_cons.mp h with heq | hm
      · left
        rw [heq]
        exact List.Mem.head _
      · rcases ih k mv k2 mv2 hm with hm2 | he
        · left
          exact List.mem_cons_of_mem _ hm2
        · right
          exact he

theorem yaml_ne_null_of_isNull_false (v : Yaml) (hv : v.isNull = false) :
    v ≠ Yaml.nullV := by
  intro h
  subst h
  simp [Yaml.isNull] at hv

theorem tagsProc_not_vacuous (cfg : Settings) (v : Yaml) (mv : MetaVal)
    (h : tagsProc cfg v = .ok (some mv)) : nonVacuous mv := by
  unfold tagsProc listOrDel at h
  by_cases he : ((_to_list v).map (fun t => Tag.mk (_strip t))).isEmpty = true
  · rw [if_pos he] at h
    exact Option.noConfusion (Except.ok.inj h)
  · rw [if_neg he] at h
    have h2 := Option.some.inj (Except.ok.inj h)
    rw [← h2]
    refine ⟨nofun, ?_, nofun⟩
    intro hc
    injection hc with hl
    rw [hl] at he
    exact he rfl

theorem authorsProc_not_vacuous (cfg : Settings) (v : Yaml) (mv : MetaVal)
    (h : authorsProc cfg v = .ok (some mv)) : nonVacuous mv := by
  unfold authorsProc listOrDel at h
  by_cases he : ((_to_list v).map (fun a => Author.mk (_strip a))).isEmpty = true
  · rw [if_pos he] at h
    exact Option.noConfusion (Except.ok.inj h)
  · rw [if_neg he] at h
    have h2 := Option.some.inj (Except.ok.inj h)
    rw [← h2]
    refine ⟨nofun, nofun, ?_⟩
    intro hc
    injection hc with hl
    rw [hl] at he
    exact he rfl

theorem dateProc_not_vacuous (cfg : Settings) (v : Yaml) (mv : MetaVal)
    (h : dateProc cfg v = .ok (some mv)) : nonVacuous mv := by
  unfold dateProc _parse_date at h
  cases hg : cfg.getDate (parseDateStr v) with
  | none => rw [hg] at h; exact Except.noConfusion h
  | some d =>
    rw [hg] at h
    have h2 := Option.some.inj (Except.ok.inj h)
    rw [← h2]
    exact ⟨nofun, nofun, nofun⟩

theorem categoryProc_not_vacuous (cfg : Settings) (v : Yaml) (mv : MetaVal)
    (h : categoryProc cfg v = .ok (some mv)) : nonVacuous mv := by
  unfold categoryProc at h
  by_cases ht : pyTruthy v = true
  · rw [if_pos ht] at h
    have h2 := Option.some.inj (Except.ok.inj h)
    rw [← h2]
    exact ⟨nofun, nofun, nofun⟩
  · rw [if_neg ht] at h
    exact Option.noConfusion (Except.ok.inj h)

theorem authorProc_not_vacuous (cfg : Settings) (v : Yaml) (mv : MetaVal)
    (h : authorProc cfg v = .ok (some mv)) : nonVacuous mv := by
  unfold authorProc at h
  by_cases ht : pyTruthy v = true
  · rw [if_pos ht] at h
    have h2 := Option.some.inj (Except.ok.inj h)
    rw [← h2]
    exact ⟨nofun, nofun, nofun⟩
  · rw [if_neg ht] at h
    exact Option.noConfusion (Except.ok.inj h)

theorem slugLikeProc_not_vacuous (cfg : Settings) (v : Yaml) (mv : MetaVal)
    (h : slugLikeProc cfg v = .ok (some mv)) : nonVacuous mv := by
  unfold slugLikeProc strOrDel at h
  by_cases he : (_strip v).data.isEmpty = true
  · rw [if_pos he] at h
    exact Option.noConfusion (Except.ok.inj h)
  · rw [if_neg he] at h
    have h2 := Option.some.inj (Except.ok.inj h)
    rw [← h2]
    exact ⟨nofun, nofun, nofun⟩

theorem pathNoExtProc_not_vacuous (cfg : Settings) (v : Yaml) (mv : MetaVal)
    (h : pathNoExtProc cfg v = .ok (some mv)) : nonVacuous mv := by
  unfold pathNoExtProc at h
  cases v with
  | strV s =>
    have h2 := Option.some.inj (Except.ok.inj h)
    rw [← h2]
    exact ⟨nofun, nofun, nofun⟩
  | nullV => exact Except.noConfusion h
  | boolV b => exact Except.noConfusion h
  | intV n => exact Except.noConfusion h
  | dateV d => exact Except.noConfusion h
  | listV l => exact Except.noConfusion h
  | dictV l => exact Except.noConfusion h

set_option maxHeartbeats 1000000 in
theorem applyProc_not_vacuous (cfg : Settings) (name : String) (v : Yaml)
    (hv : v.isNull = false) (mv : MetaVal)
    (h : applyProc cfg name v = .ok (some mv)) : nonVacuous mv := by
  unfold applyProc at h
  split_ifs at h
  · exact tagsProc_not_vacuous cfg v mv h
  · exact dateProc_not_vacuous cfg v mv h
  · exact dateProc_not_vacuous cfg v mv h
  · exact categoryProc_not_vacuous cfg v mv h
  · exact authorProc_not_vacuous cfg v mv h
  · exact authorsProc_not_vacuous cfg v mv h
  · exact slugLikeProc_not_vacuous cfg v mv h
  · exact slugLikeProc_not_vacuous cfg v mv h
  · exact slugLikeProc_not_vacuous cfg v mv h
  · exact pathNoExtProc_not_vacuous cfg v mv h
  · have h2 := Option.some.inj (Except.ok.inj h)
    rw [← h2]
    refine ⟨?_, nofun, nofun⟩
    intro hc
    injection hc with h3
    exact yaml_ne_null_of_isNull_false v hv h3

theorem normalizeField_not_vacuous (cfg : Settings) (src n0 : String) :
    ∀ (v0 : Yaml) (k : String) (mv : MetaVal) (ls : List LogEntry),
      normalizeField cfg src n0 v0 = .ok (some (k, mv), ls) →
      nonVacuous mv := by
  have hfin : ∀ (name : String) (value : Yaml) (logs : List LogEntry)
      (k : String) (mv : MetaVal) (ls : List LogEntry),
      value.isNull = false →
      finishField cfg name value logs = .ok (some (k, mv), ls) →
      nonVacuous mv := by
    intro name value logs k mv ls hv h
    obtain ⟨hap, _, _⟩ := finishField_some cfg name value logs k mv ls h
    exact applyProc_not_vacuous cfg name value hv mv hap
  intro v0 k mv ls h
  cases v0 with
  | nullV =>
    simp only [normalizeField] at h
    exact Option.noConfusion (congrArg Prod.fst (Except.ok.inj h))
  | listV l =>
    simp only [normalizeField] at h
    by_cases hfmt : cfg.formattedFields.contains (pyLower n0) = true
    · rw [if_pos hfmt] at h
      cases hj : joinLines (l.filter (fun x => !x.isNull)) with
      | error e => rw [hj] at h; exact Except.noConfusion h
      | ok s =>
        rw [hj] at h
        refine hfin _ _ _ _ _ _ ?_ h
        rfl
    · rw [if_neg hfmt] at h
      by_cases hup : (l.filter (fun x => !x.isNull)).length > 1 ∧ pyLower n0 = "author"
      · rw [if_pos hup] at h
        refine hfin _ _ _ _ _ _ ?_ h
        rfl
      · rw [if_neg hup] at h
        by_cases hdp : (DUPES_NOT_ALLOWED cfg.duplicatesDefinitionsAllowed).contains
            (pyLower n0) = true
        · rw [if_pos hdp] at h
          cases hfl : l.filter (fun x => !x.isNull) with
          | nil => rw [hfl] at h; exact Except.noConfusion h
          | cons h2 t2 =>
            rw [hfl] at h
            have hmem : h2 ∈ l.filter (fun x => !x.isNull) := by
              rw [hfl]
              exact List.Mem.head _
            have hnn : h2.isNull = false := by
              have h4 := (List.mem_filter.mp hmem).2
              simpa using h4
            exact hfin _ _ _ _ _ _ hnn h
        · rw [if_neg hdp] at h
          refine hfin _ _ _ _ _ _ ?_ h
          rfl
  | boolV b =>
    simp only [normalizeField] at h
    by_cases hfmt : cfg.formattedFields.contains (pyLower n0) = true
    · rw [if_pos hfmt] at h
      refine hfin _ _ _ _ _ _ ?_ h
      rfl
    · rw [if_neg hfmt] at h
      refine hfin _ _ _ _ _ _ ?_ h
      rfl
  | intV n =>
    simp only [normalizeField] at h
    by_cases hfmt : cfg.formattedFields.contains (pyLower n0) = true
    · rw [if_pos hfmt] at h
      refine hfin _ _ _ _ _ _ ?_ h
      rfl
    · rw [if_neg hfmt] at h
      refine hfin _ _ _ _ _ _ ?_ h
      rfl
  | strV s =>
    simp only [normalizeField] at h
    by_cases hfmt : cfg.formattedFields.contains (pyLower n0) = true
    · rw [if_pos hfmt] at h
      refine hfin _ _ _ _ _ _ ?_ h
      rfl
    · rw [if_neg hfmt] at h
      refine hfin _ _ _ _ _ _ ?_ h
      rfl
  | dateV d =>
    simp only [normalizeField] at h
    by_cases hfmt : cfg.formattedFields.contains (pyLower n0) = true
    · rw [if_pos hfmt] at h
      refine hfin _ _ _ _ _ _ ?_ h
      rfl
    · rw [if_neg hfmt] at h
      refine hfin _ _ _ _ _ _ ?_ h
      rfl
  | dictV dl =>
    simp only [normalizeField] at h
    by_cases hfmt : cfg.formattedFields.contains (pyLower n0) = true
    · rw [if_pos hfmt] at h
      refine hfin _ _ _ _ _ _ ?_ h
      rfl
    · rw [if_neg hfmt] at h
      refine hfin _ _ _ _ _ _ ?_ h
      rfl

theorem parseFields_not_vacuous (cfg : Settings) (src : String) :
    ∀ (meta : List (String × Yaml)) (out0 : List (String × MetaVal))
      (logs0 : List LogEntry) (out : List (String × MetaVal))
      (logs : List LogEntry),
      (∀ k mv, (k, mv) ∈ out0 → nonVacuous mv) →
      parseFields cfg src meta out0 logs0 = .ok (out, logs) →
      ∀ k mv, (k, mv) ∈ out → nonVacuous mv := by
  intro meta
  induction meta with
  | nil =>
    intro out0 logs0 out logs hinv h
    rw [parseFields] at h
    injection h with h2
    injection h2 with h3 _
    subst h3
    exact hinv
  | cons hd rest ih =>
    intro out0 logs0 out logs hinv h
    obtain ⟨n, v⟩ := hd
    rw [parseFields] at h
    cases hnf : normalizeField cfg src n v with
    | error e => rw [hnf] at h; cases h
    | ok r =>
      rw [hnf] at h
      obtain ⟨o, ls⟩ := r
      cases o with
      | none => exact ih out0 (logs0 ++ ls) out logs hinv h
      | some kv =>
        obtain ⟨k2, mv2⟩ := kv
        refine ih (setKey out0 k2 mv2) (logs0 ++ ls) out logs ?_ h
        intro k3 mv3 hm
        rcases setKey_mem out0 k2 mv2 k3 mv3 hm with hm2 | he
        · exact hinv k3 mv3 hm2
        · rw [he]
          exact normalizeField_not_vacuous cfg src n v k2 mv2 ls hnf

/-- C2 (amended): the normalized mapping never binds a key to a null
value, an empty tag list, or an empty author list (the registered list
processors Drop empty results); however, an unregistered pass-through
field whose raw value is an empty or all-null list does survive as an
empty-list entry, as the counterexample shows. -/
theorem c2_no_vacuous_values (cfg : Settings) (src : String)
    (meta : List (String × Yaml)) (out : List (String × MetaVal))
    (logs : List LogEntry)
    (h : parseYamlMetadata cfg src meta = .ok (out, logs)) :
    ∀ k mv, (k, mv) ∈ out → nonVacuous mv := by
  unfold parseYamlMetadata at h
  cases hp : parseFields cfg src meta [] [] with
  | error e => rw [hp] at h; cases h
  | ok r =>
    rw [hp] at h
    obtain ⟨out0, logs0⟩ := r
    injection h with h2
    injection h2 with h3 _
    subst h3
    exact parseFields_not_vacuous cfg src meta [] [] out0 logs0
      (by intro k mv hm; cases hm) hp

/-- C2 witness: a plain pass-through entry of a singleton mapping is not
vacuous. -/
theorem c2_witness : nonVacuous (MetaVal.yaml (Yaml.strV "x")) :=
  c2_no_vacuous_values sampleCfg "content/post.md" [("title", Yaml.strV "x")]
    [("title", MetaVal.yaml (Yaml.strV "x"))]
    [LogEntry.debugParsed [("title", Yaml.strV "x")]
      [("title", MetaVal.yaml (Yaml.strV "x"))]]
    rfl "title" (MetaVal.yaml (Yaml.strV "x")) (List.Mem.head _)

/-- C3 (amended): with the standard configuration (`author` not a
formatted field and in the duplicates-not-allowed set), a raw `author`
field holding a single truthy scalar, or a one-element list holding a
truthy value, normalizes to `author ↦ Author(strip v)` with no `authors`
key; a list of two or more non-null entries upconverts to `authors`
holding one Author record per entry in original order, with no `author`
key.  (The original claim said "non-null" for the single case, but a
falsy non-null value such as `""` is Dropped, as the counterexample
shows.) -/
theorem c3_author_normalization (cfg : Settings) (src n0 : String)
    (hlow : pyLower n0 = "author")
    (hf : cfg.formattedFields.contains "author" = false)
    (hd : (DUPES_NOT_ALLOWED cfg.duplicatesDefinitionsAllowed).contains
      "author" = true) :
    (∀ v : Yaml, v.isList = false → pyTruthy v = true →
      ∃ logs, parseYamlMetadata cfg src [(n0, v)] =
        .ok ([("author", .author ⟨_strip v⟩)], logs)) ∧
    (∀ v : Yaml, v.isNull = false → pyTruthy v = true →
      ∃ logs, parseYamlMetadata cfg src [(n0, Yaml.listV [v])] =
        .ok ([("author", .author ⟨_strip v⟩)], logs)) ∧
    (∀ l : List Yaml, (∀ x ∈ l, x.isNull = false) → 1 < l.length →
      ∃ logs, parseYamlMetadata cfg src [(n0, Yaml.listV l)] =
        .ok ([("authors", .authors (l.map (fun a => ⟨_strip a⟩)))], logs)) := by
  have happ : ∀ w : Yaml, pyTruthy w = true →
      applyProc cfg "author" w = .ok (some (.author ⟨_strip w⟩)) := by
    intro w hw
    rw [applyProc_author]
    unfold authorProc
    rw [if_pos hw]
  refine ⟨?_, ?_, ?_⟩
  · intro v hvl hvt
    have hnf : normalizeField cfg src n0 v =
        .ok (some ("author", .author ⟨_strip v⟩), []) := by
      cases v with
      | nullV => simp [pyTruthy] at hvt
      | listV l => simp [Yaml.isList] at hvl
      | boolV b =>
        simp only [normalizeField, hlow]
        rw [if_neg (by rw [hf]; exact Bool.false_ne_true)]
        unfold finishField
        rw [happ _ hvt]
        rfl
      | intV n =>
        simp only [normalizeField, hlow]
        rw [if_neg (by rw [hf]; exact Bool.false_ne_true)]
        unfold finishField
        rw [happ _ hvt]
        rfl
      | strV s =>
        simp only [normalizeField, hlow]
        rw [if_neg (by rw [hf]; exact Bool.false_ne_true)]
        unfold finishField
        rw [happ _ hvt]
        rfl
      | dateV d =>
        simp only [normalizeField, hlow]
        rw [if_neg (by rw [hf]; exact Bool.false_ne_true)]
        unfold finishField
        rw [happ _ hvt]
        rfl
      | dictV dl =>
        simp only [normalizeField, hlow]
        rw [if_neg (by rw [hf]; exact Bool.false_ne_true)]
        unfold finishField
        rw [happ _ hvt]
        rfl
    refine ⟨[LogEntry.debugParsed [(n0, v)] [("author", .author ⟨_strip v⟩)]], ?_⟩
    unfold parseYamlMetadata
    simp only [parseFields, hnf]
    rfl
  · intro v hvn hvt
    have hnf : normalizeField cfg src n0 (Yaml.listV [v]) =
        .ok (some ("author", .author ⟨_strip v⟩), []) := by
      simp only [normalizeField]
      rw [hlow]
      rw [if_neg (by rw [hf]; exact Bool.false_ne_true)]
      have hfl : List.filter (fun x => !x.isNull) [v] = [v] := by
        rw [List.filter_eq_self]
        intro a ha
        rcases List.mem_singleton.mp ha with rfl
        simp [hvn]
      rw [hfl]
      rw [if_neg (by intro hand; simp at hand)]
      rw [if_pos hd]
      show Except.map _ (applyProc cfg "author" v) = _
      rw [happ _ hvt]
      rfl
    refine ⟨[LogEntry.debugParsed [(n0, Yaml.listV [v])]
      [("author", .author ⟨_strip v⟩)]], ?_⟩
    unfold parseYamlMetadata
    simp only [parseFields, hnf]
    rfl
  · intro l hln hlen
    have hfl : List.filter (fun x => !x.isNull) l = l := by
      rw [List.filter_eq_self]
      intro a ha
      simp [hln a ha]
    have hnf : normalizeField cfg src n0 (Yaml.listV l) =
        .ok (some ("authors", .authors (l.map (fun a => ⟨_strip a⟩))), []) := by
      simp only [normalizeField]
      rw [hlow]
      rw [if_neg (by rw [hf]; exact Bool.false_ne_true)]
      rw [hfl]
      rw [if_pos ⟨hlen, rfl⟩]
      unfold finishField
      rw [applyProc_authors]
      unfold authorsProc listOrDel
      have h2 : _to_list (Yaml.listV l) = l := rfl
      rw [h2]
      have hne : (l.map (fun a => Author.mk (_strip a))).isEmpty = false := by
        cases l with
        | nil => simp at hlen
        | cons a l2 => rfl
      rw [if_neg (by rw [hne]; exact Bool.false_ne_true)]
      rfl
    refine ⟨[LogEntry.debugParsed [(n0, Yaml.listV l)]
      [("authors", .authors (l.map (fun a => ⟨_strip a⟩)))]], ?_⟩
    unfold parseYamlMetadata
    simp only [parseFields, hnf]
    rfl

/-- C3 witness: `author: " Jane "` yields a single trimmed Author record
under the `author` key. -/
theorem c3_witness :
    ∃ logs, parseYamlMetadata sampleCfg "content/post.md"
      [("author", Yaml.strV " Jane ")] =
        .ok ([("author", .author ⟨"Jane"⟩)], logs) :=
  (c3_author_normalization sampleCfg "content/post.md" "author" (by decide)
    (by decide) (by decide)).1 (Yaml.strV " Jane ") rfl rfl

theorem startMarkerHere_decomp (l r : List Char)
    (h : startMarkerHere l = some r) :
    l = '-' :: '-' :: '-' :: r ∧ isEol r = true := by
  rw [startMarkerHere.eq_def] at h
  split at h
  · rename_i rest
    by_cases he : isEol rest = true
    · rw [if_pos he] at h
      have h2 := Option.some.inj h
      subst h2
      exact ⟨rfl, he⟩
    · rw [if_neg he] at h
      exact Option.noConfusion h
  · exact Option.noConfusion h

theorem skipWsToMarker_decomp :
    ∀ (l : List Char) (atLS : Bool) (r : List Char),
      skipWsToMarker l atLS = some r →
      ∃ ws, l = ws ++ '-' :: '-' :: '-' :: r ∧
        (∀ c ∈ ws, isPySpace c = true) ∧ isEol r = true ∧
        ((ws = [] ∧ atLS = true) ∨ ws.getLast? = some '\n') := by
  intro l
  induction l with
  | nil => intro atLS r h; simp [skipWsToMarker] at h
  | cons c rest ih =>
    intro atLS r h
    rw [skipWsToMarker] at h
    by_cases hsp : isPySpace c = true
    · rw [if_pos hsp] at h
      obtain ⟨ws2, he, hws, heol, hlast⟩ := ih (c == '\n') r h
      refine ⟨c :: ws2, by rw [List.cons_append, he], ?_, heol, ?_⟩
      · intro x hx
        rcases List.mem_cons.mp hx with rfl | hx2
        · exact hsp
        · exact hws x hx2
      · right
        rcases hlast with ⟨hnil, hls⟩ | hl
        · subst hnil
          have hcn : c = '\n' := by simpa using hls
          rw [hcn]
          rfl
        · cases ws2 with
          | nil => simp at hl
          | cons w ws3 =>
            rw [List.getLast?_cons_cons]
            exact hl
    · rw [if_neg hsp] at h
      by_cases hls : atLS = true
      · rw [if_pos hls] at h
        obtain ⟨he, heol⟩ := startMarkerHere_decomp (c :: rest) r h
        refine ⟨[], by rw [List.nil_append, he], ?_, heol, Or.inl ⟨rfl, hls⟩⟩
        intro x hx
        cases hx
      · rw [if_neg hls] at h
        exact Option.noConfusion h

theorem markerHere_decomp (l : List Char) (h : markerHere l = true) :
    (l = '-' :: '-' :: '-' :: dropMarker l ∨
      l = '.' :: '.' :: '.' :: dropMarker l) ∧
      isEol (dropMarker l) = true := by
  rw [markerHere.eq_def] at h
  split at h
  · exact ⟨Or.inl rfl, h⟩
  · exact ⟨Or.inr rfl, h⟩
  · exact Bool.noConfusion h

theorem findEndMarker_decomp :
    ∀ (r m b : List Char), findEndMarker r = some (m, b) →
      ∃ mk, (mk = dashesL ∨ mk = dotsL) ∧ r = m ++ mk ++ b ∧
        m ≠ [] ∧ m.getLast? = some '\n' ∧ isEol b = true := by
  intro r
  induction r with
  | nil => intro m b h; simp [findEndMarker] at h
  | cons c rest ih =>
    intro m b h
    rw [findEndMarker] at h
    by_cases hc : (decide (c = '\n') && markerHere rest) = true
    · rw [if_pos hc] at h
      have h2 := Option.some.inj h
      rcases Bool.and_eq_true_iff.mp hc with ⟨hc1, hmk⟩
      have hc1b : c = '\n' := by simpa using hc1
      obtain ⟨hsh, heol⟩ := markerHere_decomp rest hmk
      have hm1 : [c] = m := congrArg Prod.fst h2
      have hb1 : dropMarker rest = b := congrArg Prod.snd h2
      subst hc1b
      rcases hsh with h3 | h3
      · refine ⟨dashesL, Or.inl rfl, ?_, ?_, ?_, ?_⟩
        · rw [← hm1, ← hb1]
          show '\n' :: rest = '\n' :: ('-' :: '-' :: '-' :: dropMarker rest)
          rw [← h3]
        · rw [← hm1]
          simp
        · rw [← hm1]
          rfl
        · rw [← hb1]
          exact heol
      · refine ⟨dotsL, Or.inr rfl, ?_, ?_, ?_, ?_⟩
        · rw [← hm1, ← hb1]
          show '\n' :: rest = '\n' :: ('.' :: '.' :: '.' :: dropMarker rest)
          rw [← h3]
        · rw [← hm1]
          simp
        · rw [← hm1]
          rfl
        · rw [← hb1]
          exact heol
    · rw [if_neg hc] at h
      cases hfe : findEndMarker rest with
      | none => rw [hfe] at h; exact Option.noConfusion h
      | some p =>
        obtain ⟨m2, b2⟩ := p
        rw [hfe] at h
        have h2 := Option.some.inj h
        have hm1 : c :: m2 = m := congrArg Prod.fst h2
        have hb1 : b2 = b := congrArg Prod.snd h2
        obtain ⟨mk, hmk, hr, hm2ne, hm2l, heolb⟩ := ih m2 b2 hfe
        refine ⟨mk, hmk, ?_, ?_, ?_, ?_⟩
        · rw [← hm1, ← hb1, hr]
          rfl
        · rw [← hm1]
          simp
        · rw [← hm1]
          cases m2 with
          | nil => exact absurd rfl hm2ne
          | cons d m3 =>
            rw [List.getLast?_cons_cons]
            exact hm2l
        · rw [← hb1]
          exact heolb

theorem headerMatch_decomp (t m b : List Char)
    (h : headerMatch t = some (m, b)) :
    ∃ ws mk, (∀ c ∈ ws, isPySpace c = true) ∧
      (ws = [] ∨ ws.getLast? = some '\n') ∧
      (mk = dashesL ∨ mk = dotsL) ∧
      t = ws ++ ('-' :: '-' :: '-' :: []) ++ m ++ mk ++ b ∧
      m ≠ [] ∧ m.getLast? = some '\n' ∧
      (∃ m2, m = '\n' :: m2) ∧ isEol b = true := by
  unfold headerMatch at h
  cases hs : skipWsToMarker t true with
  | none => rw [hs] at h; exact Option.noConfusion h
  | some r =>
    rw [hs] at h
    obtain ⟨ws, ht, hws, heolr, hlast⟩ := skipWsToMarker_decomp t true r hs
    obtain ⟨mk, hmk, hr, hmne, hml, heolb⟩ := findEndMarker_decomp r m b h
    obtain ⟨m2, hm2⟩ : ∃ m2, m = '\n' :: m2 := by
      cases m with
      | nil => exact absurd rfl hmne
      | cons c0 m3 =>
        rw [hr] at heolr
        simp [isEol] at heolr
        exact ⟨m3, by rw [heolr]⟩
    refine ⟨ws, mk, hws, ?_, hmk, ?_, hmne, hml, ⟨m2, hm2⟩, heolb⟩
    · rcases hlast with ⟨h1, _⟩ | h2
      · exact Or.inl h1
      · exact Or.inr h2
    · rw [ht, hr]
      simp [List.append_assoc]

/-- C5: whenever the header regex matches, the content group returned as
the body is exactly the document text strictly following the end-marker
characters: the document decomposes as whitespace, the start marker, the
metadata group, an end marker (`---` or `...`), and then the body,
verbatim. -/
theorem c5_body_verbatim (t : String) (m b : List Char)
    (h : headerMatch t.data = some (m, b)) :
    ∃ ws mk, (∀ c ∈ ws, isPySpace c = true) ∧
      (mk = dashesL ∨ mk = dotsL) ∧
      t.data = ws ++ ('-' :: '-' :: '-' :: []) ++ m ++ mk ++ b := by
  obtain ⟨ws, mk, hws, _, hmk, ht, _⟩ := headerMatch_decomp t.data m b h
  exact ⟨ws, mk, hws, hmk, ht⟩

/-- C5 witness: a concrete document decomposes with its body exactly the
suffix after the end marker. -/
theorem c5_witness :
    ∃ ws mk, (∀ c ∈ ws, isPySpace c = true) ∧
      (mk = dashesL ∨ mk = dotsL) ∧
      ("---\na: 1\n---\nBody" : String).data =
        ws ++ ('-' :: '-' :: '-' :: []) ++ ("\na: 1\n" : String).data ++
          mk ++ ("\nBody" : String).data :=
  c5_body_verbatim "---\na: 1\n---\nBody" ("\na: 1\n" : String).data
    ("\nBody" : String).data rfl

theorem dropWhile_append_all {α : Type} (p : α → Bool) :
    ∀ (l1 l2 : List α), (∀ x ∈ l1, p x = true) →
      (l1 ++ l2).dropWhile p = l2.dropWhile p := by
  intro l1
  induction l1 with
  | nil => intro l2 _; rfl
  | cons a l ih =>
    intro l2 hall
    rw [List.cons_append, List.dropWhile_cons, if_pos (hall a (List.Mem.head _))]
    exact ih l2 (fun x hx => hall x (List.mem_cons_of_mem _ hx))

theorem splitLines_nonl_prepend :
    ∀ (x : List Char), '\n' ∉ x → ∀ rest : List Char,
      splitLines (x ++ '\n' :: rest) = x :: splitLines rest := by
  intro x
  induction x with
  | nil =>
    intro _ rest
    rw [List.nil_append, splitLines, if_pos rfl]
  | cons c x2 ih =>
    intro hnx rest
    have hc : ¬(c = '\n') := fun hh => hnx (hh ▸ List.Mem.head _)
    rw [List.cons_append, splitLines, if_neg hc,
      ih (fun hm => hnx (List.mem_cons_of_mem _ hm)) rest]

theorem splitLines_append_endNl :
    ∀ (a : List Char), a ≠ [] → a.getLast? = some '\n' →
      ∀ rest : List Char, ∃ front, front ≠ [] ∧
        splitLines (a ++ rest) = front ++ splitLines rest ∧
        ((∀ c ∈ a, isPySpace c = true) →
          ∀ x ∈ front, isBlankLine x = true) := by
  intro a
  induction a with
  | nil => intro hne _ _; exact absurd rfl hne
  | cons c a2 ih =>
    intro _ hlast rest
    cases a2 with
    | nil =>
      have hc : c = '\n' := by simpa using hlast
      subst hc
      refine ⟨[[]], by simp, ?_, ?_⟩
      · show splitLines ('\n' :: rest) = [] :: splitLines rest
        rw [splitLines, if_pos rfl]
      · intro _ x hx
        rcases List.mem_singleton.mp hx with rfl
        rfl
    | cons d a3 =>
      have hlast2 : (d :: a3).getLast? = some '\n' := by
        rw [← List.getLast?_cons_cons]
        exact hlast
      obtain ⟨front2, hfne, hsl, hblank⟩ :=
        ih (List.cons_ne_nil d a3) hlast2 rest
      by_cases hc : c = '\n'
      · subst hc
        refine ⟨[] :: front2, by simp, ?_, ?_⟩
        · show splitLines ('\n' :: ((d :: a3) ++ rest)) =
            ([] :: front2) ++ splitLines rest
          rw [splitLines, if_pos rfl, hsl]
          rfl
        · intro hsp x hx
          rcases List.mem_cons.mp hx with rfl | hx2
          · rfl
          · exact hblank (fun y hy => hsp y (List.mem_cons_of_mem _ hy)) x hx2
      · cases front2 with
        | nil => exact absurd rfl hfne
        | cons f fs =>
          refine ⟨(c :: f) :: fs, by simp, ?_, ?_⟩
          · show splitLines (c :: ((d :: a3) ++ rest)) =
              ((c :: f) :: fs) ++ splitLines rest
            rw [splitLines, if_neg hc, hsl]
            rfl
          · intro hsp x hx
            have hcf : isBlankLine f = true :=
              hblank (fun y hy => hsp y (List.mem_cons_of_mem _ hy)) f
                (List.Mem.head _)
            rcases List.mem_cons.mp hx with rfl | hx2
            · have hcsp : isPySpace c = true := hsp c (List.Mem.head _)
              simp only [isBlankLine, List.all_cons, hcsp, Bool.true_and]
              exact hcf
            · exact hblank (fun y hy => hsp y (List.mem_cons_of_mem _ hy)) x
                (List.mem_cons_of_mem _ hx2)

theorem marker_mem_splitLines (mk b : List Char)
    (hmk : mk = dashesL ∨ mk = dotsL) (heol : isEol b = true) :
    mk ∈ splitLines (mk ++ b) := by
  have hnl : '\n' ∉ mk := by
    rcases hmk with rfl | rfl <;> decide
  cases b with
  | nil =>
    rw [List.append_nil]
    rcases hmk with rfl | rfl <;> decide
  | cons c b2 =>
    have hc : c = '\n' := by simpa [isEol] using heol
    subst hc
    rw [splitLines_nonl_prepend mk hnl b2]
    exact List.Mem.head _

theorem headerMatch_some_shape (t m b : List Char)
    (h : headerMatch t = some (m, b)) :
    ((splitLines t).dropWhile isBlankLine).head? = some dashesL ∧
      ∃ x ∈ ((splitLines t).dropWhile isBlankLine).tail,
        x = dashesL ∨ x = dotsL := by
  obtain ⟨ws, mk, hws, hwslast, hmk, ht, hmne, hml, ⟨m2, hm2⟩, heolb⟩ :=
    headerMatch_decomp t m b h
  subst hm2
  have hnl3 : '\n' ∉ ('-' :: '-' :: '-' :: ([] : List Char)) := by decide
  have ht2 : t = ws ++ (('-' :: '-' :: '-' :: []) ++
      '\n' :: (m2 ++ mk ++ b)) := by
    rw [ht]
    simp [List.append_assoc]
  have hsl2 : splitLines (('-' :: '-' :: '-' :: ([] : List Char)) ++
      '\n' :: (m2 ++ mk ++ b)) =
      ('-' :: '-' :: '-' :: []) :: splitLines (m2 ++ mk ++ b) :=
    splitLines_nonl_prepend _ hnl3 _
  have hmarker : mk ∈ splitLines (m2 ++ mk ++ b) := by
    cases hm2c : m2 with
    | nil =>
      simpa using marker_mem_splitLines mk b hmk heolb
    | cons d m3 =>
      have hm2l : m2.getLast? = some '\n' := by
        rw [hm2c] at hml ⊢
        rw [List.getLast?_cons_cons] at hml
        exact hml
      rw [← hm2c]
      obtain ⟨front2, _, hsl3, _⟩ :=
        splitLines_append_endNl m2 (by rw [hm2c]; exact List.cons_ne_nil d m3)
          hm2l (mk ++ b)
      rw [List.append_assoc, hsl3]
      exact List.mem_append_right front2 (marker_mem_splitLines mk b hmk heolb)
  have hdash_notblank : isBlankLine ('-' :: '-' :: '-' :: []) = false := by
    decide
  have hmain : (splitLines t).dropWhile isBlankLine =
      ('-' :: '-' :: '-' :: []) :: splitLines (m2 ++ mk ++ b) := by
    rcases hwslast with hwnil | hwl
    · subst hwnil
      rw [ht2, List.nil_append, hsl2, List.dropWhile_cons, hdash_notblank]
      simp
    · have hwne : ws ≠ [] := by
        intro h0
        rw [h0] at hwl
        simp at hwl
      obtain ⟨front, _, hslw, hbl⟩ := splitLines_append_endNl ws hwne hwl
        (('-' :: '-' :: '-' :: []) ++ '\n' :: (m2 ++ mk ++ b))
      rw [ht2, hslw, hsl2,
        dropWhile_append_all isBlankLine front _ (hbl hws),
        List.dropWhile_cons, hdash_notblank]
      simp
  rw [hmain]
  exact ⟨rfl, mk, hmarker, hmk⟩

/-- C9: a document that (after optional leading blank lines) does not
begin with a line consisting exactly of `---`, or in which no subsequent
line equals `---` or `...`, makes `read` take the fallback path for every
possible decoder: the YAML decoder is never invoked. -/
theorem c9_no_header_fallback (cfg : Settings)
    (parse : String → Except Unit Yaml) (src : String) (t : String)
    (h : noHeaderShape t) :
    read cfg parse src t = .fallback src := by
  cases hm : headerMatch t.data with
  | none =>
    unfold read
    rw [hm]
  | some p =>
    obtain ⟨m, b⟩ := p
    obtain ⟨hhead, x, hxmem, hx⟩ := headerMatch_some_shape t.data m b hm
    unfold noHeaderShape at h
    rcases h with h1 | h2
    · exact absurd hhead h1
    · obtain ⟨hxd, hxt⟩ := h2 x hxmem
      rcases hx with rfl | rfl
      · exact absurd rfl hxd
      · exact absurd rfl hxt

/-- C9 witness: a document with no `---` line routes to the fallback. -/
theorem c9_witness :
    read sampleCfg (fun _ => Except.error ()) "content/post.md" "Hello" =
      .fallback "content/post.md" :=
  c9_no_header_fallback sampleCfg (fun _ => Except.error ())
    "content/post.md" "Hello" (by decide)

/-- C8: when the header is detected but the decoder fails or decodes to
a non-mapping, `read` returns the empty metadata mapping together with an
error-level log record naming the source, and the body following the end
marker is still rendered unchanged. -/
theorem c8_decode_failure_degrades (cfg : Settings)
    (parse : String → Except Unit Yaml) (src text : String)
    (m b : List Char) (hm : headerMatch text.data = some (m, b))
    (hp : parse (String.mk m) = .error () ∨
      ∃ y, parse (String.mk m) = .ok y ∧ y.isDict = false) :
    ∃ lg, (lg = LogEntry.yamlError src ∨ lg = LogEntry.notDictError src) ∧
      read cfg parse src text =
        .done (cfg.mdRender (String.mk b)) [] [lg] := by
  unfold read
  rw [hm]
  rcases hp with hp1 | ⟨y, hp2, hyd⟩
  · refine ⟨LogEntry.yamlError src, Or.inl rfl, ?_⟩
    show (match loadYamlMetadata cfg parse src (String.mk m) with
      | .error e => ReadResult.raised e
      | .ok (md, logs) =>
        ReadResult.done (cfg.mdRender (String.mk b))
          (if hasKey md "toc" then
            setKey md "parsed_toc" (.yaml (cfg.tocTokens (String.mk b)))
          else md) logs) = _
    unfold loadYamlMetadata
    rw [hp1]
    rfl
  · refine ⟨LogEntry.notDictError src, Or.inr rfl, ?_⟩
    show (match loadYamlMetadata cfg parse src (String.mk m) with
      | .error e => ReadResult.raised e
      | .ok (md, logs) =>
        ReadResult.done (cfg.mdRender (String.mk b))
          (if hasKey md "toc" then
            setKey md "parsed_toc" (.yaml (cfg.tocTokens (String.mk b)))
          else md) logs) = _
    unfold loadYamlMetadata
    rw [hp2]
    cases y with
    | dictV d => simp [Yaml.isDict] at hyd
    | nullV => rfl
    | boolV b2 => rfl
    | intV n => rfl
    | strV s => rfl
    | dateV d => rfl
    | listV l => rfl

/-- C8 witness: an unterminated-list header yields empty metadata, an
error log, and the body rendered unchanged. -/
theorem c8_witness :
    ∃ lg, (lg = LogEntry.yamlError "f.md" ∨ lg = LogEntry.notDictError "f.md") ∧
      read sampleCfg (fun _ => Except.error ()) "f.md"
        "---\ntitle: [a\n---\nBody" = .done "\nBody" [] [lg] :=
  c8_decode_failure_degrades sampleCfg (fun _ => Except.error ()) "f.md"
    "---\ntitle: [a\n---\nBody" ("\ntitle: [a\n" : String).data
    ("\nBody" : String).data rfl (Or.inl rfl)

theorem strList_ok :
    ∀ (l : List Yaml), l.all Yaml.isStr = true →
      strList l = .ok (l.map Yaml.getStr) := by
  intro l
  induction l with
  | nil => intro _; rfl
  | cons x xs ih =>
    intro h
    rw [List.all_cons] at h
    rcases Bool.and_eq_true_iff.mp h with ⟨hx, hxs⟩
    cases x with
    | strV s =>
      show (strList xs).map (fun l2 => s :: l2) =
        Except.ok ((Yaml.strV s :: xs).map Yaml.getStr)
      rw [ih hxs]
      rfl
    | nullV => exact Bool.noConfusion hx
    | boolV b => exact Bool.noConfusion hx
    | intV n => exact Bool.noConfusion hx
    | dateV d => exact Bool.noConfusion hx
    | listV l2 => exact Bool.noConfusion hx
    | dictV l2 => exact Bool.noConfusion hx

set_option maxHeartbeats 1000000 in
theorem procSafe_ok (cfg : Settings) (name : String) (v : Yaml)
    (h : procSafe cfg name v = true) :
    ∃ r, applyProc cfg name v = .ok r := by
  unfold applyProc
  split_ifs with h1 h2 h3 h4 h5 h6 h7 h8 h9 h10
  · exact ⟨_, rfl⟩
  · unfold procSafe at h
    rw [h2] at h
    rw [if_pos (by decide)] at h
    unfold dateProc _parse_date
    cases hg : cfg.getDate (parseDateStr v) with
    | none => rw [hg] at h; exact Bool.noConfusion h
    | some d => exact ⟨_, rfl⟩
  · unfold procSafe at h
    rw [h3] at h
    rw [if_pos (by decide)] at h
    unfold dateProc _parse_date
    cases hg : cfg.getDate (parseDateStr v) with
    | none => rw [hg] at h; exact Bool.noConfusion h
    | some d => exact ⟨_, rfl⟩
  · exact ⟨_, rfl⟩
  · exact ⟨_, rfl⟩
  · exact ⟨_, rfl⟩
  · exact ⟨_, rfl⟩
  · exact ⟨_, rfl⟩
  · exact ⟨_, rfl⟩
  · unfold procSafe at h
    rw [h10] at h
    rw [if_neg (by decide), if_pos (by decide)] at h
    unfold pathNoExtProc
    cases v with
    | strV s => exact ⟨_, rfl⟩
    | nullV => exact Bool.noConfusion h
    | boolV b => exact Bool.noConfusion h
    | intV n => exact Bool.noConfusion h
    | dateV d => exact Bool.noConfusion h
    | listV l => exact Bool.noConfusion h
    | dictV l => exact Bool.noConfusion h
  · exact ⟨_, rfl⟩

theorem fieldSafe_ok (cfg : Settings) (src n0 : String) :
    ∀ v0 : Yaml, fieldSafe cfg n0 v0 = true →
      ∃ r, normalizeField cfg src n0 v0 = .ok r := by
  intro v0 h
  cases v0 with
  | nullV => exact ⟨_, rfl⟩
  | listV l =>
    simp only [fieldSafe] at h
    simp only [normalizeField]
    by_cases hfmt : cfg.formattedFields.contains (pyLower n0) = true
    · rw [if_pos hfmt] at h ⊢
      rcases Bool.and_eq_true_iff.mp h with ⟨hall, hps⟩
      have hj : joinLines (l.filter (fun x => !x.isNull)) =
          .ok (String.intercalate "\n"
            ((l.filter (fun x => !x.isNull)).map Yaml.getStr)) := by
        unfold joinLines
        rw [strList_ok _ hall]
        rfl
      cases hjm : joinLines (l.filter (fun x => !x.isNull)) with
      | error e =>
        rw [hj] at hjm
        exact Except.noConfusion hjm
      | ok s =>
        have hs : s = String.intercalate "\n"
            ((l.filter (fun x => !x.isNull)).map Yaml.getStr) := by
          rw [hj] at hjm
          exact (Except.ok.inj hjm).symm
        show ∃ r, finishField cfg (pyLower n0)
          (Yaml.strV (cfg.mdRender s)) [] = Except.ok r
        subst hs
        obtain ⟨r0, hap⟩ := procSafe_ok cfg (pyLower n0) _ hps
        exact ⟨_, by unfold finishField; rw [hap]; rfl⟩
    · rw [if_neg hfmt] at h ⊢
      by_cases hup : (l.filter (fun x => !x.isNull)).length > 1 ∧
          pyLower n0 = "author"
      · rw [if_pos hup]
        exact ⟨_, by unfold finishField; rw [applyProc_authors]; rfl⟩
      · rw [if_neg hup] at h ⊢
        by_cases hdp : (DUPES_NOT_ALLOWED
            cfg.duplicatesDefinitionsAllowed).contains (pyLower n0) = true
        · rw [if_pos hdp] at h ⊢
          cases hfl : l.filter (fun x => !x.isNull) with
          | nil => rw [hfl] at h; exact Bool.noConfusion h
          | cons h2 t2 =>
            rw [hfl] at h
            obtain ⟨r0, hap⟩ := procSafe_ok cfg (pyLower n0) h2 h
            refine ⟨(Option.map (fun mv => (pyLower n0, mv)) r0,
              if 0 < t2.length then
                [LogEntry.warning (pyLower n0) src (h2 :: t2) h2]
              else []), ?_⟩
            show finishField cfg (pyLower n0) h2
              (if 0 < t2.length then
                [LogEntry.warning (pyLower n0) src (h2 :: t2) h2]
              else []) = _
            unfold finishField
            rw [hap]
            rfl
        · rw [if_neg hdp] at h ⊢
          obtain ⟨r0, hap⟩ := procSafe_ok cfg (pyLower n0) _ h
          exact ⟨_, by unfold finishField; rw [hap]; rfl⟩
  | boolV b =>
    simp only [fieldSafe] at h
    simp only [normalizeField]
    by_cases hfmt : cfg.formattedFields.contains (pyLower n0) = true
    · rw [if_pos hfmt] at h ⊢
      obtain ⟨r0, hap⟩ := procSafe_ok cfg (pyLower n0) _ h
      exact ⟨_, by unfold finishField; rw [hap]; rfl⟩
    · rw [if_neg hfmt] at h ⊢
      obtain ⟨r0, hap⟩ := procSafe_ok cfg (pyLower n0) _ h
      exact ⟨_, by unfold finishField; rw [hap]; rfl⟩
  | intV n =>
    simp only [fieldSafe] at h
    simp only [normalizeField]
    by_cases hfmt : cfg.formattedFields.contains (pyLower n0) = true
    · rw [if_pos hfmt] at h ⊢
      obtain ⟨r0, hap⟩ := procSafe_ok cfg (pyLower n0) _ h
      exact ⟨_, by unfold finishField; rw [hap]; rfl⟩
    · rw [if_neg hfmt] at h ⊢
      obtain ⟨r0, hap⟩ := procSafe_ok cfg (pyLower n0) _ h
      exact ⟨_, by unfold finishField; rw [hap]; rfl⟩
  | strV s =>
    simp only [fieldSafe] at h
    simp only [normalizeField]
    by_cases hfmt : cfg.formattedFields.contains (pyLower n0) = true
    · rw [if_pos hfmt] at h ⊢
      obtain ⟨r0, hap⟩ := procSafe_ok cfg (pyLower n0) _ h
      exact ⟨_, by unfold finishField; rw [hap]; rfl⟩
    · rw [if_neg hfmt] at h ⊢
      obtain ⟨r0, hap⟩ := procSafe_ok cfg (pyLower n0) _ h
      exact ⟨_, by unfold finishField; rw [hap]; rfl⟩
  | dateV d =>
    simp only [fieldSafe] at h
    simp only [normalizeField]
    by_cases hfmt : cfg.formattedFields.contains (pyLower n0) = true
    · rw [if_pos hfmt] at h ⊢
      obtain ⟨r0, hap⟩ := procSafe_ok cfg (pyLower n0) _ h
      exact ⟨_, by unfold finishField; rw [hap]; rfl⟩
    · rw [if_neg hfmt] at h ⊢
      obtain ⟨r0, hap⟩ := procSafe_ok cfg (pyLower n0) _ h
      exact ⟨_, by unfold finishField; rw [hap]; rfl⟩
  | dictV dl =>
    simp only [fieldSafe] at h
    simp only [normalizeField]
    by_cases hfmt : cfg.formattedFields.contains (pyLower n0) = true
    · rw [if_pos hfmt] at h ⊢
      obtain ⟨r0, hap⟩ := procSafe_ok cfg (pyLower n0) _ h
      exact ⟨_, by unfold finishField; rw [hap]; rfl⟩
    · rw [if_neg hfmt] at h ⊢
      obtain ⟨r0, hap⟩ := procSafe_ok cfg (pyLower n0) _ h
      exact ⟨_, by unfold finishField; rw [hap]; rfl⟩

theorem parseFields_ok (cfg : Settings) (src : String) :
    ∀ (meta : List (String × Yaml)) (out : List (String × MetaVal))
      (logs : List LogEntry),
      (∀ p ∈ meta, fieldSafe cfg p.1 p.2 = true) →
      ∃ r, parseFields cfg src meta out logs = .ok r := by
  intro meta
  induction meta with
  | nil => intro out logs _; exact ⟨_, rfl⟩
  | cons hd rest ih =>
    intro out logs hall
    obtain ⟨n, v⟩ := hd
    obtain ⟨r0, h0⟩ := fieldSafe_ok cfg src n v (hall (n, v) (List.Mem.head _))
    obtain ⟨o, ls⟩ := r0
    cases o with
    | none =>
      obtain ⟨r1, h1⟩ := ih out (logs ++ ls)
        (fun p hp => hall p (List.mem_cons_of_mem _ hp))
      exact ⟨r1, by simp only [parseFields, h0]; exact h1⟩
    | some kv =>
      obtain ⟨k, mv⟩ := kv
      obtain ⟨r1, h1⟩ := ih (setKey out k mv) (logs ++ ls)
        (fun p hp => hall p (List.mem_cons_of_mem _ hp))
      exact ⟨r1, by simp only [parseFields, h0]; exact h1⟩

/-- C1 (amended): the normalization pipeline returns a result whenever
every raw field satisfies the explicit per-branch safety conditions
(`fieldSafe`: formatted list fields hold only strings, a
duplicates-not-allowed list is non-empty after null filtering, the value
reaching the `date`/`modified` processor parses, and the value reaching
`path_no_ext` is a string).  Outside these conditions an exception
(IndexError, ValueError, TypeError, or AttributeError) propagates to the
caller, as the counterexample shows. -/
theorem c1_pipeline_total_when_safe (cfg : Settings) (src : String)
    (meta : List (String × Yaml))
    (h : ∀ p ∈ meta, fieldSafe cfg p.1 p.2 = true) :
    ∃ out logs, parseYamlMetadata cfg src meta = .ok (out, logs) := by
  obtain ⟨r, hr⟩ := parseFields_ok cfg src meta [] [] h
  obtain ⟨out, logs⟩ := r
  refine ⟨out, logs ++ [.debugParsed meta out], ?_⟩
  unfold parseYamlMetadata
  rw [hr]
  rfl

/-- C1 witness: a mapping with a title, a tag list, and a parseable date
normalizes without raising. -/
theorem c1_witness :
    ∃ out logs, parseYamlMetadata sampleCfg "content/post.md"
      [("Title", Yaml.strV "Hi"), ("tags", Yaml.listV [Yaml.strV "a"]),
       ("date", Yaml.strV "2020-01-01")] = .ok (out, logs) :=
  c1_pipeline_total_when_safe sampleCfg "content/post.md"
    [("Title", Yaml.strV "Hi"), ("tags", Yaml.listV [Yaml.strV "a"]),
     ("date", Yaml.strV "2020-01-01")] (by decide)

theorem string_data_nil (s : String) (h : s.data = []) : s = "" := by
  cases s with
  | mk d =>
    have hd : d = [] := h
    subst hd
    rfl

theorem map_strip_strV_idem {α : Type} (g : String → α) (nm : α → String)
    (hg : ∀ s, nm (g s) = s) (l0 : List Yaml) :
    ((l0.map (fun t => g (_strip t))).map (fun t => Yaml.strV (nm t))).map
      (fun t => g (_strip t)) = l0.map (fun t => g (_strip t)) := by
  rw [List.map_map, List.map_map]
  refine List.map_congr_left ?_
  intro a _
  show g (_strip (Yaml.strV (nm (g (_strip a))))) = g (_strip a)
  rw [hg]
  show g (pyStrip (pyStrip (pyStr a))) = g (pyStrip (pyStr a))
  rw [pyStrip_idem]

theorem tagsProc_reserialize (cfg : Settings) (v : Yaml) (mv : MetaVal)
    (h : tagsProc cfg v = .ok (some mv)) :
    tagsProc cfg (reserialize mv) = .ok (some mv) := by
  unfold tagsProc listOrDel at h ⊢
  by_cases he : ((_to_list v).map (fun t => Tag.mk (_strip t))).isEmpty = true
  · rw [if_pos he] at h
    exact Option.noConfusion (Except.ok.inj h)
  · rw [if_neg he] at h
    have h2 := Option.some.inj (Except.ok.inj h)
    rw [← h2]
    show Except.ok (if ((((_to_list v).map (fun t => Tag.mk (_strip t))).map
        (fun t => Yaml.strV t.name)).map (fun t => Tag.mk (_strip t))).isEmpty
        = true then none
      else some (MetaVal.tags ((((_to_list v).map (fun t => Tag.mk (_strip t))).map
        (fun t => Yaml.strV t.name)).map (fun t => Tag.mk (_strip t))))) = _
    rw [map_strip_strV_idem Tag.mk Tag.name (fun _ => rfl)]
    rw [if_neg he]

theorem authorsProc_reserialize (cfg : Settings) (v : Yaml) (mv : MetaVal)
    (h : authorsProc cfg v = .ok (some mv)) :
    authorsProc cfg (reserialize mv) = .ok (some mv) := by
  unfold authorsProc listOrDel at h ⊢
  by_cases he : ((_to_list v).map (fun a => Author.mk (_strip a))).isEmpty = true
  · rw [if_pos he] at h
    exact Option.noConfusion (Except.ok.inj h)
  · rw [if_neg he] at h
    have h2 := Option.some.inj (Except.ok.inj h)
    rw [← h2]
    show Except.ok (if ((((_to_list v).map (fun a => Author.mk (_strip a))).map
        (fun a => Yaml.strV a.name)).map (fun a => Author.mk (_strip a))).isEmpty
        = true then none
      else some (MetaVal.authors ((((_to_list v).map (fun a => Author.mk (_strip a))).map
        (fun a => Yaml.strV a.name)).map (fun a => Author.mk (_strip a))))) = _
    rw [map_strip_strV_idem Author.mk Author.name (fun _ => rfl)]
    rw [if_neg he]

theorem dateProc_reserialize (cfg : Settings) (hrt : dateRoundTrip cfg)
    (v : Yaml) (mv : MetaVal) (h : dateProc cfg v = .ok (some mv)) :
    dateProc cfg (reserialize mv) = .ok (some mv) := by
  unfold dateProc _parse_date at h ⊢
  cases hg : cfg.getDate (parseDateStr v) with
  | none =>
    rw [hg] at h
    exact Except.noConfusion h
  | some d =>
    rw [hg] at h
    have h2 := Option.some.inj (Except.ok.inj h)
    rw [← h2]
    have hps : parseDateStr (reserialize (MetaVal.date d)) =
        pyUnderscores (pyStrip d) := rfl
    rw [hps, hrt _ _ hg]
    rfl

theorem authorProc_reserialize (cfg : Settings) (v : Yaml) (mv : MetaVal)
    (hs : pyStrip (pyStr v) ≠ "")
    (h : authorProc cfg v = .ok (some mv)) :
    authorProc cfg (reserialize mv) = .ok (some mv) := by
  unfold authorProc at h ⊢
  by_cases ht : pyTruthy v = true
  · rw [if_pos ht] at h
    have h2 := Option.some.inj (Except.ok.inj h)
    rw [← h2]
    have htr : pyTruthy (reserialize (MetaVal.author ⟨_strip v⟩)) = true := by
      show (!(pyStrip (pyStr v)).data.isEmpty) = true
      cases hd : (pyStrip (pyStr v)).data with
      | nil => exact absurd (string_data_nil _ hd) hs
      | cons a l => rfl
    rw [if_pos htr]
    show Except.ok (some (MetaVal.author ⟨pyStrip (pyStrip (pyStr v))⟩)) = _
    rw [pyStrip_idem]
    rfl
  · rw [if_neg ht] at h
    exact Option.noConfusion (Except.ok.inj h)

theorem categoryProc_reserialize (cfg : Settings) (v : Yaml) (mv : MetaVal)
    (hs : pyStrip (pyStr v) ≠ "")
    (h : categoryProc cfg v = .ok (some mv)) :
    categoryProc cfg (reserialize mv) = .ok (some mv) := by
  unfold categoryProc at h ⊢
  by_cases ht : pyTruthy v = true
  · rw [if_pos ht] at h
    have h2 := Option.some.inj (Except.ok.inj h)
    rw [← h2]
    have htr : pyTruthy (reserialize (MetaVal.category ⟨_strip v⟩)) = true := by
      show (!(pyStrip (pyStr v)).data.isEmpty) = true
      cases hd : (pyStrip (pyStr v)).data with
      | nil => exact absurd (string_data_nil _ hd) hs
      | cons a l => rfl
    rw [if_pos htr]
    show Except.ok (some (MetaVal.category ⟨pyStrip (pyStrip (pyStr v))⟩)) = _
    rw [pyStrip_idem]
    rfl
  · rw [if_neg ht] at h
    exact Option.noConfusion (Except.ok.inj h)

theorem slugLikeProc_reserialize (cfg : Settings) (v : Yaml) (mv : MetaVal)
    (h : slugLikeProc cfg v = .ok (some mv)) :
    slugLikeProc cfg (reserialize mv) = .ok (some mv) := by
  unfold slugLikeProc strOrDel at h ⊢
  by_cases he : (_strip v).data.isEmpty = true
  · rw [if_pos he] at h
    exact Option.noConfusion (Except.ok.inj h)
  · rw [if_neg he] at h
    have h2 := Option.some.inj (Except.ok.inj h)
    rw [← h2]
    show Except.ok (if (pyStrip (_strip v)).data.isEmpty = true then none
      else some (MetaVal.str (pyStrip (_strip v)))) = _
    have hi : pyStrip (_strip v) = _strip v := pyStrip_idem (pyStr v)
    rw [hi, if_neg he]

set_option maxHeartbeats 2000000 in
/-- C10 (amended): re-serializing a normalized value and re-applying the
field's processor is idempotent for every non-formatted registered field
except `path_no_ext` (whose replace-all transform is not idempotent), and
for `author` / `category` only when the trimmed raw value is non-empty (a
whitespace-only raw value normalizes to a record of the empty string that
a second pass Drops, as the counterexample shows); the `date` / `modified`
case assumes the external date collaborator re-parses its own canonical
output to the same value. -/
theorem c10_idempotent (cfg : Settings) (name : String) (v : Yaml)
    (mv : MetaVal)
    (hnf : cfg.formattedFields.contains name = false)
    (hpn : name ≠ "path_no_ext")
    (hac : name = "author" ∨ name = "category" → pyStrip (pyStr v) ≠ "")
    (hdt : name = "date" ∨ name = "modified" → dateRoundTrip cfg)
    (h : applyProc cfg name v = .ok (some mv)) :
    applyProc cfg name (reserialize mv) = .ok (some mv) := by
  unfold applyProc at h ⊢
  split_ifs at h ⊢ with h1 h2 h3 h4 h5 h6 h7 h8 h9
  · exact tagsProc_reserialize cfg v mv h
  · exact dateProc_reserialize cfg (hdt (Or.inl h2)) v mv h
  · exact dateProc_reserialize cfg (hdt (Or.inr h3)) v mv h
  · exact categoryProc_reserialize cfg v mv (hac (Or.inr h4)) h
  · exact authorProc_reserialize cfg v mv (hac (Or.inl h5)) h
  · exact authorsProc_reserialize cfg v mv h
  · exact slugLikeProc_reserialize cfg v mv h
  · exact slugLikeProc_reserialize cfg v mv h
  · exact slugLikeProc_reserialize cfg v mv h
  · have h2 := Option.some.inj (Except.ok.inj h)
    rw [← h2]
    rfl

/-- C10 witness: a stripped `slug` value re-normalizes to itself. -/
theorem c10_witness :
    applyProc sampleCfg "slug" (reserialize (MetaVal.str "x")) =
      .ok (some (MetaVal.str "x")) :=
  c10_idempotent sampleCfg "slug" (Yaml.strV " x ") (MetaVal.str "x")
    (by decide) (by decide) (fun hh => absurd hh (by decide))
    (fun hh => absurd hh (by decide)) rfl

end TocMd
